import Mathlib

/-
  Shallow embedding of src/src/main.cpp
  (ATMega328p Controlled Aquisition).

  The acquisition core consists of two interrupt handlers sharing one
  counter:
  - TIMER0_COMPA_vect (timer tick): unconditionally sets ADSC in ADCSRA,
    sets PORTB bits 4 and 5, then, if the ADIF bit of ADCSRA reads clear,
    increments ADC_SPL_COUNT (a uint8_t), transmits ADCH over the USART,
    and when the counter reaches ADC_SPL_TH = 128 also transmits the
    terminator byte 0x0A and resets the counter to 0; finally clears
    PORTB bit 4.
  - ADC_vect (conversion complete): clears PORTB bit 5 and nothing else.
  - USART_Transmit: busy-waits on the UDRE0 bit of UCSR0A, then writes
    the byte to UDR0 once.

  Registers are modelled as natural numbers holding 8-bit values; the
  uint8_t counter increment is taken modulo 256 as in C.  The values the
  handlers read from hardware (the ADIF bit at tick time, ADCH, the
  successive UCSR0A reads during the busy-wait) are inputs of the model.
-/

/-- Bit index of ADSC in ADCSRA (datasheet). -/
def ADSC : Nat := 6

/-- Bit index of ADIF in ADCSRA (datasheet). -/
def ADIF : Nat := 4

/-- Bit index of UDRE0 in UCSR0A (datasheet). -/
def UDRE0 : Nat := 5

/-- Frame length: `#define ADC_SPL_TH 128` in main.cpp line 41. -/
def ADC_SPL_TH : Nat := 128

/-- The terminator character transmitted at a frame boundary:
    the newline byte 0x0A, from `USART_Transmit` of a newline at
    main.cpp line 86. -/
def TERMINATOR : Nat := 10

/-- Initial value of the sample counter:
    `volatile uint8_t ADC_SPL_COUNT = 0;` (main.cpp line 40). -/
def ADC_SPL_COUNT : Nat := 0

/-- `SET(port,pin)`: `port |= (1 << pin)` (main.cpp line 26). -/
def SETbit (port pin : Nat) : Nat := port ||| (1 <<< pin)

/-- `CLR(port,pin)`: `port &= ~(1 << pin)` on an 8-bit register
    (main.cpp line 25). -/
def CLRbit (port pin : Nat) : Nat := port &&& (255 ^^^ (1 <<< pin))

/-- The machine state the two interrupt handlers touch: the ADCSRA
    control register, the PORTB output register and the shared sample
    counter ADC_SPL_COUNT. -/
structure MachState where
  adcsra : Nat
  portb : Nat
  count : Nat
  deriving DecidableEq, Repr

/-- TIMER0_COMPA_vect (main.cpp lines 54-93).  Inputs: the machine
    state at entry and the value read from ADCH.  Output: the state at
    exit and the list of bytes passed to USART_Transmit, in order.
    The handler first ORs ADSC into ADCSRA, sets PORTB bits 4 and 5,
    then tests the ADIF bit of the just-written ADCSRA: if clear it
    increments the uint8_t counter (mod 256), transmits ADCH, and when
    the counter has reached ADC_SPL_TH transmits the terminator and
    zeroes the counter; in every branch it finally clears PORTB bit 4. -/
def TIMER0_COMPA_vect (st : MachState) (adch : Nat) : MachState × List Nat :=
  let a := st.adcsra ||| (1 <<< ADSC)
  let p := SETbit (SETbit st.portb 4) 5
  if ! a.testBit ADIF then
    let c := (st.count + 1) % 256
    if ADC_SPL_TH ≤ c then
      ({ adcsra := a, portb := CLRbit p 4, count := 0 }, [adch, TERMINATOR])
    else
      ({ adcsra := a, portb := CLRbit p 4, count := c }, [adch])
  else
    ({ adcsra := a, portb := CLRbit p 4, count := st.count }, [])

/-- ADC_vect (main.cpp lines 95-98): clears PORTB bit 5; transmits
    nothing and does not touch the counter. -/
def ADC_vect (st : MachState) : MachState × List Nat :=
  ({ st with portb := CLRbit st.portb 5 }, [])

/-- One timer-tick invocation viewed on the acquisition core alone:
    the environment supplies whether the ADIF bit of ADCSRA reads set
    at entry (`stale`) and the ADCH value; the result is the counter at
    exit and the bytes transmitted.  Defined by running
    `TIMER0_COMPA_vect` on a state whose ADCSRA holds exactly the ADIF
    bit as supplied. -/
def tickStep (stale : Bool) (adch : Nat) (c : Nat) : Nat × List Nat :=
  let r := TIMER0_COMPA_vect ⟨if stale then 1 <<< ADIF else 0, 0, c⟩ adch
  (r.1.count, r.2)

/-- Run a sequence of tick invocations from counter `c`.  Each event is
    a pair (ADIF bit at entry, ADCH value); the result is the final
    counter and the concatenated transmitted bytes. -/
def run : Nat → List (Bool × Nat) → Nat × List Nat
  | c, [] => (c, [])
  | c, e :: evs =>
    let r := tickStep e.1 e.2 c
    let rest := run r.1 evs
    (rest.1, r.2 ++ rest.2)

/-- Run a stale-free sequence of conversion values. -/
def runAccepted (c : Nat) (vs : List Nat) : Nat × List Nat :=
  run c (vs.map (fun v => (false, v)))

/-- Number of accepted (non-stale) events in a trace. -/
def acceptedCount (evs : List (Bool × Nat)) : Nat :=
  (evs.filter (fun e => ! e.1)).length

/-- The busy-wait loop of USART_Transmit (main.cpp lines 46-47):
    starting at poll index `t`, return the first index at which the
    UDRE0 bit of UCSR0A reads set, within `fuel` polls. -/
def usartWait : Nat → (Nat → Nat) → Nat → Option Nat
  | 0, _, _ => none
  | fuel + 1, ucsr0a, t =>
    if (ucsr0a t).testBit UDRE0 then some t else usartWait fuel ucsr0a (t + 1)

/-- USART_Transmit (main.cpp lines 43-51): busy-wait until the UDRE0
    bit of UCSR0A is set, then write `data` to UDR0 once and return.
    `ucsr0a` gives the successive reads of UCSR0A; the result, when the
    wait finishes within `fuel` polls, is the number of wait iterations
    together with the list of writes to UDR0 (a single write of
    `data`); `none` means the busy-wait has not terminated. -/
def USART_Transmit (fuel : Nat) (ucsr0a : Nat → Nat) (data : Nat) :
    Option (Nat × List Nat) :=
  match usartWait fuel ucsr0a 0 with
  | some t => some (t, [data])
  | none => none

-- Basic characterizations of one tick.

/-- In the branch where the ADIF bit of ADCSRA reads set at tick time,
    the handler leaves the counter unchanged and transmits nothing. -/
theorem tickStep_stale (v c : Nat) : tickStep true v c = (c, []) := by
  have hb : (((1 : Nat) <<< ADIF) ||| ((1 : Nat) <<< ADSC)).testBit ADIF = true := by
    decide
  simp [tickStep, TIMER0_COMPA_vect, hb]

/-- In the accepted branch the handler, for an arbitrary uint8 counter
    value, increments the counter modulo 256, transmits ADCH, and on
    reaching the threshold transmits the terminator and resets. -/
theorem tickStep_false_eq (v c : Nat) :
    tickStep false v c =
      if ADC_SPL_TH ≤ (c + 1) % 256 then (0, [v, TERMINATOR])
      else ((c + 1) % 256, [v]) := by
  have hb : Nat.testBit 64 4 = false := by decide
  by_cases h : ADC_SPL_TH ≤ (c + 1) % 256 <;>
    simp [tickStep, TIMER0_COMPA_vect, hb, h, ADIF, ADSC]

/-- With the counter in range, the accepted branch increments it by one,
    emitting the sample, and exactly at the threshold emits the
    terminator and resets to zero. -/
theorem tickStep_acc (v c : Nat) (h : c < 128) :
    tickStep false v c =
      if c + 1 = 128 then (0, [v, TERMINATOR]) else (c + 1, [v]) := by
  rw [tickStep_false_eq]
  have hm : (c + 1) % 256 = c + 1 := Nat.mod_eq_of_lt (by omega)
  rw [hm]
  by_cases h1 : c + 1 = 128
  · simp [ADC_SPL_TH, h1]
  · have : ¬ ADC_SPL_TH ≤ c + 1 := by simp [ADC_SPL_TH]; omega
    simp [this, h1]

-- Trace lemmas.

/-- Running an appended trace splits into the two runs. -/
theorem run_append (xs ys : List (Bool × Nat)) (c : Nat) :
    run c (xs ++ ys) =
      ((run (run c xs).1 ys).1, (run c xs).2 ++ (run (run c xs).1 ys).2) := by
  induction xs generalizing c with
  | nil => simp [run]
  | cons e xs ih => simp [run, ih]

/-- Stale events drop out of the accepted-event count. -/
theorem acceptedCount_cons_stale (v : Nat) (evs : List (Bool × Nat)) :
    acceptedCount ((true, v) :: evs) = acceptedCount evs := by
  simp [acceptedCount]

/-- Accepted events add one to the accepted-event count. -/
theorem acceptedCount_cons_acc (v : Nat) (evs : List (Bool × Nat)) :
    acceptedCount ((false, v) :: evs) = acceptedCount evs + 1 := by
  simp [acceptedCount]

/-- A stale-free run that stays strictly below the threshold emits the
    samples verbatim and adds their number to the counter. -/
theorem runAccepted_under (vs : List Nat) (c : Nat)
    (h : c + vs.length < 128) :
    runAccepted c vs = (c + vs.length, vs) := by
  induction vs generalizing c with
  | nil => simp [runAccepted, run]
  | cons v vs ih =>
    have hc : c < 128 := by simp at h; omega
    have h1 : ¬ (c + 1 = 128) := by simp at h; omega
    have ht := tickStep_acc v c hc
    rw [if_neg h1] at ht
    have ih2 := ih (c + 1) (by simp at h ⊢; omega)
    simp only [runAccepted, List.map_cons, run, ht] at ih2 ⊢
    simp [ih2]
    omega

/-- A stale-free run of exactly the remaining capacity of the frame
    emits the samples followed by the terminator and resets the counter
    to zero. -/
theorem runAccepted_fill (vs : List Nat) (c : Nat)
    (hc : c < 128) (hl : c + vs.length = 128) :
    runAccepted c vs = (0, vs ++ [TERMINATOR]) := by
  induction vs generalizing c with
  | nil => simp at hl; omega
  | cons v vs ih =>
    have ht := tickStep_acc v c hc
    by_cases h1 : c + 1 = 128
    · have hv : vs = [] := by
        have hlen : vs.length = 0 := by simp at hl; omega
        exact List.length_eq_zero.mp hlen
      subst hv
      rw [if_pos h1] at ht
      simp [runAccepted, run, ht]
    · rw [if_neg h1] at ht
      have ih2 := ih (c + 1) (by omega) (by simp at hl ⊢; omega)
      simp only [runAccepted, List.map_cons, run, ht] at ih2 ⊢
      simp [ih2]

/-- Counting invariant for arbitrary traces starting in range: the
    counter at exit equals the accepted count plus the entry counter,
    modulo the frame length, and the number of transmitted bytes is the
    number of accepted samples plus one terminator per full frame. -/
theorem run_count (evs : List (Bool × Nat)) (c : Nat) (hc : c < 128) :
    (run c evs).1 = (c + acceptedCount evs) % 128 ∧
    (run c evs).2.length =
      acceptedCount evs + (c + acceptedCount evs) / 128 := by
  induction evs generalizing c with
  | nil =>
    simp [run, acceptedCount]
    omega
  | cons e evs ih =>
    obtain ⟨stale, v⟩ := e
    cases stale with
    | true =>
      obtain ⟨ih1, ih2⟩ := ih c hc
      refine ⟨?_, ?_⟩ <;>
        simp only [run, tickStep_stale, acceptedCount_cons_stale]
      · exact ih1
      · simpa using ih2
    | false =>
      have ht := tickStep_acc v c hc
      by_cases h1 : c + 1 = 128
      · rw [if_pos h1] at ht
        obtain ⟨ih1, ih2⟩ := ih 0 (by omega)
        refine ⟨?_, ?_⟩ <;>
          simp only [run, ht, acceptedCount_cons_acc]
        · rw [ih1]; omega
        · simp only [List.length_append, List.length_cons, List.length_nil]
          rw [ih2]; omega
      · rw [if_neg h1] at ht
        obtain ⟨ih1, ih2⟩ := ih (c + 1) (by omega)
        refine ⟨?_, ?_⟩ <;>
          simp only [run, ht, acceptedCount_cons_acc]
        · rw [ih1]; omega
        · simp only [List.length_append, List.length_cons, List.length_nil]
          rw [ih2]; omega

-- The framed stream as the spec describes it: blocks of ADC_SPL_TH
-- samples, each followed by the terminator, truncated at the end of
-- the input.

/-- Stream shape written from the spec (section 6 and testable property
    4): the first 128 samples, then the terminator, then the framing of
    the rest; a final block of fewer than 128 samples is emitted with no
    terminator. -/
def specStream (vs : List Nat) : List Nat :=
  if _h : 128 ≤ vs.length then
    vs.take 128 ++ TERMINATOR :: specStream (vs.drop 128)
  else vs
termination_by vs.length
decreasing_by simp [List.length_drop]; omega

/-- The acquisition loop started at counter zero produces exactly the
    framed stream of the spec, for inputs of length at most `n`. -/
theorem runAccepted_spec_aux (n : Nat) :
    ∀ vs : List Nat, vs.length ≤ n → (runAccepted 0 vs).2 = specStream vs := by
  induction n with
  | zero =>
    intro vs hv
    have : vs = [] := List.eq_nil_of_length_eq_zero (by omega)
    subst this
    simp [runAccepted, run, specStream]
  | succ n ih =>
    intro vs hv
    by_cases h128 : 128 ≤ vs.length
    · have htake : (vs.take 128).length = 128 := by
        simp [List.length_take]; omega
      have hsplit : vs = vs.take 128 ++ vs.drop 128 :=
        (List.take_append_drop 128 vs).symm
      have hfill : runAccepted 0 (vs.take 128) =
          (0, vs.take 128 ++ [TERMINATOR]) :=
        runAccepted_fill (vs.take 128) 0 (by omega) (by omega)
      have hmap : (vs.take 128 ++ vs.drop 128).map (fun v => (false, v)) =
          (vs.take 128).map (fun v => (false, v)) ++
            (vs.drop 128).map (fun v => (false, v)) := by
        simp
      have hdrop : (vs.drop 128).length ≤ n := by
        simp [List.length_drop]; omega
      calc (runAccepted 0 vs).2
          = (runAccepted 0 (vs.take 128)).2 ++
              (runAccepted (runAccepted 0 (vs.take 128)).1 (vs.drop 128)).2 := by
            conv_lhs => rw [hsplit]
            simp only [runAccepted, hmap, run_append]
        _ = (vs.take 128 ++ [TERMINATOR]) ++ (runAccepted 0 (vs.drop 128)).2 := by
            rw [hfill]
        _ = (vs.take 128 ++ [TERMINATOR]) ++ specStream (vs.drop 128) := by
            rw [ih (vs.drop 128) hdrop]
        _ = specStream vs := by
            conv_rhs => rw [specStream]
            simp [h128]
    · have := runAccepted_under vs 0 (by omega)
      rw [specStream]
      simp [h128, this]

-- Claim theorems.

/-- C1 (cyclic frame invariant): starting from counter 0, any
    concatenation of full frames of exactly ADC_SPL_TH = 128 accepted
    samples produces, frame after frame, the 128 sample bytes followed
    immediately by the terminator byte, with the counter back at 0
    after every frame — so the cycle repeats indefinitely. -/
theorem frame_cycle_invariant (frames : List (List Nat))
    (h : ∀ f ∈ frames, f.length = 128) :
    runAccepted 0 frames.flatten =
      (0, (frames.map (fun f => f ++ [TERMINATOR])).flatten) := by
  induction frames with
  | nil => simp [runAccepted, run]
  | cons f fs ih =>
    have hf : f.length = 128 := h f (List.mem_cons_self f fs)
    have hfs : ∀ g ∈ fs, g.length = 128 := fun g hg => h g (List.mem_cons_of_mem f hg)
    have hfill : runAccepted 0 f = (0, f ++ [TERMINATOR]) :=
      runAccepted_fill f 0 (by omega) (by omega)
    have ihj := ih hfs
    simp only [runAccepted] at hfill ihj ⊢
    simp only [List.flatten_cons, List.map_append, run_append]
    rw [hfill]
    dsimp only
    rw [ihj]
    simp

/-- C2 (stale-sample suppression): in every invocation of
    TIMER0_COMPA_vect in which the ADIF status bit of ADCSRA reads set
    at entry (the stale/busy branch of the handler), ADC_SPL_COUNT is
    left unchanged and no byte — neither sample nor terminator — is
    transmitted. -/
theorem stale_suppression (st : MachState) (v : Nat)
    (h : st.adcsra.testBit ADIF = true) :
    (TIMER0_COMPA_vect st v).1.count = st.count ∧
    (TIMER0_COMPA_vect st v).2 = [] := by
  have hb : (st.adcsra ||| (1 <<< ADSC)).testBit ADIF = true := by
    rw [Nat.testBit_or, h]
    simp
  simp [TIMER0_COMPA_vect, hb]

/-- Witness for C2 at ADCSRA = 16 (ADIF set), counter 5, sample 3. -/
theorem stale_suppression_witness :
    (TIMER0_COMPA_vect ⟨16, 0, 5⟩ 3).1.count = 5 ∧
    (TIMER0_COMPA_vect ⟨16, 0, 5⟩ 3).2 = [] :=
  stale_suppression ⟨16, 0, 5⟩ 3 (by decide)

/-- C4 (stream shape): for every stale-free sequence of accepted
    conversion values, the bytes produced by the acquisition loop
    started at counter 0 are exactly the framed stream of the spec:
    128-sample blocks each followed by TERMINATOR = 0x0A, truncated at
    the end of the input. -/
theorem stream_shape (vs : List Nat) :
    (runAccepted 0 vs).2 = specStream vs :=
  runAccepted_spec_aux vs.length vs le_rfl

/-- C5 (exactly-once emission): over any trace of tick invocations
    started at counter 0, the number of bytes transmitted equals the
    number of accepted conversions plus one terminator per 128 accepted
    conversions — exactly one sample byte per accepted conversion and
    exactly one terminator per full frame, and (with C10's per-tick
    shape) the terminator is emitted directly after the frame's last
    sample byte, never mid-sample. -/
theorem exactly_once_emission (evs : List (Bool × Nat)) :
    (run 0 evs).2.length =
      acceptedCount evs + acceptedCount evs / 128 ∧
    (run 0 evs).1 = acceptedCount evs % 128 := by
  obtain ⟨h1, h2⟩ := run_count evs 0 (by omega)
  constructor
  · rw [h2]; omega
  · rw [h1]; omega

/-- C7 (unconditional re-trigger): every invocation of
    TIMER0_COMPA_vect ORs the ADSC bit into ADCSRA — the first action
    of the handler — regardless of the converter state at entry, so at
    exit ADCSRA always has ADSC set. -/
theorem unconditional_retrigger (st : MachState) (v : Nat) :
    (TIMER0_COMPA_vect st v).1.adcsra = st.adcsra ||| (1 <<< ADSC) ∧
    ((TIMER0_COMPA_vect st v).1.adcsra).testBit ADSC = true := by
  have ha : (TIMER0_COMPA_vect st v).1.adcsra = st.adcsra ||| (1 <<< ADSC) := by
    by_cases hb : (st.adcsra ||| (1 <<< ADSC)).testBit ADIF
    · simp [TIMER0_COMPA_vect, hb]
    · by_cases hc : ADC_SPL_TH ≤ (st.count + 1) % 256 <;>
        simp [TIMER0_COMPA_vect, hb, hc]
  refine ⟨ha, ?_⟩
  rw [ha, Nat.testBit_or]
  have : ((1 : Nat) <<< ADSC).testBit ADSC = true := by decide
  simp [this]

/-- C10 (per-invocation output shape): a single tick invocation
    transmits at most two bytes: nothing (stale branch), one sample
    byte, or one sample byte directly followed by the terminator; a
    terminator is only ever transmitted right after a sample byte in
    the same invocation. -/
theorem per_tick_output_shape (stale : Bool) (v c : Nat) :
    (tickStep stale v c).2 = [] ∨
    (tickStep stale v c).2 = [v] ∨
    (tickStep stale v c).2 = [v, TERMINATOR] := by
  cases stale with
  | true => simp [tickStep_stale]
  | false =>
    rw [tickStep_false_eq]
    by_cases h : ADC_SPL_TH ≤ (c + 1) % 256 <;> simp [h]

/-- Witness for C1: two full frames of constant samples 3 and 200. -/
theorem frame_cycle_invariant_witness :
    runAccepted 0 ([List.replicate 128 3, List.replicate 128 200]).flatten =
      (0, (([List.replicate 128 3, List.replicate 128 200]).map
        (fun f => f ++ [TERMINATOR])).flatten) :=
  frame_cycle_invariant [List.replicate 128 3, List.replicate 128 200] (by simp)

/-- C3 counterexample: at a concrete state with counter 5 (and PORTB
    bits 4 and 5 set), the conversion-completion handler ADC_vect
    transmits no byte and does not advance the counter — it does not
    perform the acquisition work the claim assigns to it. -/
theorem adc_vect_no_acquisition_cex :
    (ADC_vect ⟨0, 48, 5⟩).2 = [] ∧
    ¬ (ADC_vect ⟨0, 48, 5⟩).1.count = 5 + 1 := by
  decide

/-- C3 amended: the acquisition work — reading the 8-bit result,
    passing it to the transport, advancing the counter — is performed
    by the timer tick handler TIMER0_COMPA_vect (in its accepted
    branch), while the conversion-completion handler ADC_vect only
    clears the trace pin: it transmits nothing and leaves the counter
    untouched. -/
theorem acquisition_in_timer_handler :
    (∀ st : MachState,
      (ADC_vect st).2 = [] ∧ (ADC_vect st).1.count = st.count) ∧
    (∀ v c : Nat, c < 128 →
      (tickStep false v c).2.head? = some v ∧
      ((tickStep false v c).1 = c + 1 ∨ (tickStep false v c).1 = 0)) := by
  constructor
  · intro st; exact ⟨rfl, rfl⟩
  · intro v c hc
    rw [tickStep_acc v c hc]
    by_cases h1 : c + 1 = 128 <;> simp [h1]

/-- Witness for C3's amended claim at sample 9, counter 0. -/
theorem acquisition_in_timer_handler_witness :
    (tickStep false 9 0).2.head? = some 9 ∧
    ((tickStep false 9 0).1 = 0 + 1 ∨ (tickStep false 9 0).1 = 0) :=
  acquisition_in_timer_handler.2 9 0 (by omega)

/-- C6 counterexample: the 8-bit sample value 10 = 0x0A is transmitted
    verbatim as a sample byte by the handler and equals TERMINATOR, so
    it is false that every possible 8-bit sample value differs from the
    terminator byte. -/
theorem terminator_sample_overlap_cex :
    (TIMER0_COMPA_vect ⟨0, 0, 0⟩ TERMINATOR).2 = [TERMINATOR] ∧
    ¬ (∀ v : Nat, v < 256 → v ≠ TERMINATOR) := by
  constructor
  · decide
  · intro hall
    exact hall 10 (by omega) rfl

/-- C6 amended: TERMINATOR = 0x0A lies inside the 8-bit sample range
    and the handler transmits ADCH verbatim, so a sample byte can equal
    the terminator; choosing a non-colliding terminator is a
    configuration contract on the operator, not checked or guaranteed
    by the code. -/
theorem terminator_in_sample_range :
    TERMINATOR < 256 ∧
    (∀ v c : Nat, v < 256 → c < 128 →
      (TIMER0_COMPA_vect ⟨0, 0, c⟩ v).2.head? = some v) := by
  refine ⟨by decide, ?_⟩
  intro v c _hv hc
  have h : (tickStep false v c).2.head? = some v := by
    rw [tickStep_acc v c hc]
    by_cases h1 : c + 1 = 128 <;> simp [h1]
  exact h

/-- Witness for C6's amended claim: the terminator value itself,
    transmitted as a sample. -/
theorem terminator_in_sample_range_witness :
    (TIMER0_COMPA_vect ⟨0, 0, 0⟩ TERMINATOR).2.head? = some TERMINATOR :=
  terminator_in_sample_range.2 TERMINATOR 0 (by decide) (by omega)

/-- C8 (sample-counter range invariant): ADC_SPL_COUNT starts at 0;
    after any trace of tick invocations from the initial value the
    counter is strictly below 128 (so it is in range at every handler
    entry and exit); a stale invocation leaves it unchanged; an
    accepted invocation increments it, except that on reaching the
    threshold it is reset to 0 in the same invocation that transmits
    the terminator. -/
theorem sample_counter_range_invariant :
    ADC_SPL_COUNT = 0 ∧
    (∀ evs : List (Bool × Nat), (run ADC_SPL_COUNT evs).1 < 128) ∧
    (∀ v c : Nat, tickStep true v c = (c, [])) ∧
    (∀ v c : Nat, c < 128 →
      tickStep false v c =
        if c + 1 = 128 then (0, [v, TERMINATOR]) else (c + 1, [v])) := by
  refine ⟨rfl, ?_, tickStep_stale, tickStep_acc⟩
  intro evs
  have h := (run_count evs 0 (by omega)).1
  simp only [ADC_SPL_COUNT]
  rw [h]
  omega

/-- Witness for C8 at the frame boundary: counter 127, sample 7. -/
theorem sample_counter_range_invariant_witness :
    tickStep false 7 127 = (0, [7, TERMINATOR]) := by
  have h := sample_counter_range_invariant.2.2.2 7 127 (by omega)
  simpa using h

-- Lemmas for the transport write primitive.

/-- The busy-wait returns the first poll index at which UDRE0 reads
    set, provided it occurs within the fuel. -/
theorem usartWait_finds (fuel : Nat) (ucsr0a : Nat → Nat) (t : Nat) :
    ∀ s : Nat, s ≤ t → t < s + fuel →
      (∀ u, s ≤ u → u < t → (ucsr0a u).testBit UDRE0 = false) →
      (ucsr0a t).testBit UDRE0 = true →
      usartWait fuel ucsr0a s = some t := by
  induction fuel with
  | zero =>
    intro s hs hlt _ _
    exact absurd hlt (by omega)
  | succ fuel ih =>
    intro s hs hlt hbefore hat
    by_cases hst : s = t
    · subst hst
      simp [usartWait, hat]
    · have hslt : s < t := by omega
      have hfs : (ucsr0a s).testBit UDRE0 = false := hbefore s le_rfl hslt
      simp only [usartWait, hfs, Bool.false_eq_true, if_false]
      exact ih (s + 1) (by omega) (by omega)
        (fun u hu1 hu2 => hbefore u (by omega) hu2) hat

/-- If UDRE0 never reads set the busy-wait never finishes, for any
    amount of fuel. -/
theorem usartWait_stalls (fuel : Nat) (ucsr0a : Nat → Nat)
    (h : ∀ t, (ucsr0a t).testBit UDRE0 = false) :
    ∀ s, usartWait fuel ucsr0a s = none := by
  induction fuel with
  | zero => intro s; rfl
  | succ fuel ih => intro s; simp [usartWait, h s, ih]

/-- C9 (transport write primitive): USART_Transmit busy-waits until the
    first read of UCSR0A with the UDRE0 bit set, then writes the byte
    to UDR0 exactly once and returns immediately (the write is its last
    action, with no wait for transmission completion); under the
    assumption that the buffer-empty flag eventually reads set it
    terminates, and if the flag never reads set it never returns, for
    any bound on the number of polls. -/
theorem usart_transmit_contract :
    (∀ (fuel : Nat) (ucsr0a : Nat → Nat) (data t : Nat),
      t < fuel →
      (∀ u, u < t → (ucsr0a u).testBit UDRE0 = false) →
      (ucsr0a t).testBit UDRE0 = true →
      USART_Transmit fuel ucsr0a data = some (t, [data])) ∧
    (∀ (fuel : Nat) (ucsr0a : Nat → Nat) (data : Nat),
      (∀ t, (ucsr0a t).testBit UDRE0 = false) →
      USART_Transmit fuel ucsr0a data = none) := by
  constructor
  · intro fuel ucsr0a data t hf hbefore hat
    have hw := usartWait_finds fuel ucsr0a t 0 (by omega) (by omega)
      (fun u _ hu => hbefore u hu) hat
    simp [USART_Transmit, hw]
  · intro fuel ucsr0a data h
    simp [USART_Transmit, usartWait_stalls fuel ucsr0a h 0]

/-- Witness for C9: the flag first reads set at the third poll. -/
theorem usart_transmit_contract_witness :
    USART_Transmit 10 (fun t => if t = 2 then 32 else 0) 99 = some (2, [99]) :=
  usart_transmit_contract.1 10 (fun t => if t = 2 then 32 else 0) 99 2
    (by omega) (by decide) (by decide)
